import Mathlib

/-!
Shallow embedding of `apricot/facilityLocation.py`: the facility-location
marginal-gain kernels (dense / sparse / GPU-vectorized), the gain
post-processing of `_calculate_gains`, the selection committer
`_select_next`, and the initializer `_initialize`.

Float64 values are modelled as rationals; all arithmetic on the inputs
appearing in concrete theorems is exact in binary64, so the rational model
agrees with the floating-point code there.
-/

namespace Apricot

/-- Embeds the numba kernel `select_next(X, gains, current_values, idxs)`:
for each position `i`, `gains[i] = numpy.maximum(X[idxs[i]], current_values).sum()`.
The kernel writes the result into a zero-initialized `gains` buffer; we return
that buffer as a list. -/
def select_next (X : List (List ℚ)) (current_values : List ℚ) (idxs : List ℕ) : List ℚ :=
  idxs.map (fun idx => (List.zipWith max (X.getD idx []) current_values).sum)

/-- A compressed-sparse-row matrix: value buffer, column-index buffer, and
row-start offsets, exactly the `data` / `indices` / `indptr` triple that
`_calculate_gains` unpacks from a `scipy.sparse.csr_matrix`. -/
structure CSR where
  data : List ℚ
  indices : List ℕ
  indptr : List ℕ
deriving DecidableEq

/-- Embeds the numba kernel
`select_next_sparse(X_data, X_indices, X_indptr, gains, current_values, idxs)`:
starting from `gains[i] = 0`, for each stored entry `j` in
`[indptr[idx], indptr[idx+1])` it accumulates
`gains[i] += max(X_data[j], current_values[X_indices[j]])`. -/
def select_next_sparse (M : CSR) (current_values : List ℚ) (idxs : List ℕ) : List ℚ :=
  idxs.map (fun idx =>
    let start := M.indptr.getD idx 0
    let stop := M.indptr.getD (idx + 1) 0
    ((List.range (stop - start)).map (fun j0 =>
      let j := start + j0
      max (M.data.getD j 0) (current_values.getD (M.indices.getD j 0) 0))).sum)

/-- First index of a maximum entry, the semantics of `cupy.argmax` (ties are
broken toward the smaller index; an empty input is mapped to `0`). -/
def argmax : List ℚ → ℕ
  | [] => 0
  | [_] => 0
  | x :: y :: ys =>
    let j := argmax (y :: ys)
    if (y :: ys).getD j 0 > x then j + 1 else 0

/-- Embeds `select_next_cupy(X, gains, current_values, mask)`:
`gains[:] = cupy.sum(cupy.maximum(X, current_values), axis=1)` (elementwise max
broadcasting `current_values` across the rows of `X`), then
`gains[:] = gains * (1 - mask)`, and the function returns
`int(cupy.argmax(gains))`.  We return the final `gains` buffer together with
the returned index. -/
def select_next_cupy (X : List (List ℚ)) (current_values mask : List ℚ) :
    List ℚ × ℕ :=
  let gains := X.map (fun row => (List.zipWith max row current_values).sum)
  let gains2 := List.zipWith (fun g m => g * (1 - m)) gains mask
  (gains2, argmax gains2)

/-- Embeds the dense CPU branch of `_calculate_gains`: run `select_next` into a
zero buffer, then `gains -= self.current_values.sum()`. -/
def calculate_gains (X : List (List ℚ)) (current_values : List ℚ) (idxs : List ℕ) :
    List ℚ :=
  (select_next X current_values idxs).map (fun g => g - current_values.sum)

/-- Embeds the sparse CPU branch of `_calculate_gains`: run `select_next_sparse`
into a zero buffer, then `gains -= self.current_values.sum()`. -/
def calculate_gains_sparse (M : CSR) (current_values : List ℚ) (idxs : List ℕ) :
    List ℚ :=
  (select_next_sparse M current_values idxs).map (fun g => g - current_values.sum)

/-- The canonical CSR encoding of a dense matrix with explicit zeros dropped,
as produced by `scipy.sparse.csr_matrix` on a dense array: row-major stored
values, their column indices, and cumulative row lengths. -/
def csrOfDense (X : List (List ℚ)) : CSR :=
  let nz := X.map (fun row => row.enum.filter (fun p => p.2 ≠ 0))
  { data := (nz.map (fun r => r.map Prod.snd)).flatten
    indices := (nz.map (fun r => r.map Prod.fst)).flatten
    indptr := (nz.map List.length).scanl (· + ·) 0 }

/-- A similarity row handed to the committer `_select_next`, in either of the
two CPU layouts: a dense row, or a sparse row given by its stored
`(column, value)` pairs (the committer densifies it with `toarray()[0]`). -/
inductive SimRow where
  | dense (row : List ℚ)
  | sparse (entries : List (ℕ × ℚ))

/-- Densification of a sparse row over `d` columns, the `X_pairwise.toarray()[0]`
call in `_select_next`: column `k` holds the stored value at `k`, or `0`. -/
def toarray (entries : List (ℕ × ℚ)) (d : ℕ) : List ℚ :=
  (List.range d).map (fun k => (entries.lookup k).getD 0)

/-- Embeds the committer `_select_next(X_pairwise, gain, idx)` state update:
`self.current_values = numpy.maximum(row, self.current_values)` where `row` is
the dense similarity row, densified first when the backend is sparse.  `d` is
the number of columns used for densification. -/
def _select_next (d : ℕ) (row : SimRow) (current_values : List ℚ) : List ℚ :=
  match row with
  | .dense r => List.zipWith max r current_values
  | .sparse e => List.zipWith max (toarray e d) current_values

/-- Number of columns of a `SimRow` once densified over `d` columns. -/
def rowLen (d : ℕ) : SimRow → ℕ
  | .dense r => r.length
  | .sparse _ => d

/-- Folds a sequence of committer calls over a starting coverage vector. -/
def run_commits (d : ℕ) (rows : List SimRow) (current_values : List ℚ) : List ℚ :=
  rows.foldl (fun cv r => _select_next d r cv) current_values

/-- Coverage vector after the first `t` commits of a run. -/
def state_after (d : ℕ) (rows : List SimRow) (current_values : List ℚ) (t : ℕ) :
    List ℚ :=
  run_commits d (rows.take t) current_values

/-- The `initial_subset` argument as `_initialize` discriminates it: absent,
a one-dimensional array of indices, a two-dimensional matrix of raw examples,
or an array of any other dimensionality. -/
inductive InitialSubset where
  | none
  | oneD (idxs : List ℕ)
  | twoD (examples : List (List ℚ))
  | higher

/-- Modelled from the spec: the base-class `_initialize` (in `base.py`, which is
not among the sources) seeds the coverage vector with zeros and, per the spec's
error-handling design, fails fast — before any gain computation — when the
pairwise similarity matrix contains a negative entry. -/
def base_init (X : List (List ℚ)) : Except String (List ℚ) :=
  if X.any (fun row => row.any (fun x => x < 0)) then
    Except.error "Similarity matrix contains negative entries"
  else
    Except.ok (List.replicate X.length 0)

/-- The facility-location part of `_initialize`, after the `super()` call: given
the coverage vector left by the base class, fold the initial subset in.  A
two-dimensional subset raises `ValueError` before touching `current_values`; a
one-dimensional subset folds each referenced row in by elementwise maximum; any
other dimensionality raises the final `ValueError`.  Returns the outcome
together with the coverage vector as it stands after the call. -/
def fold_initial (X : List (List ℚ)) (s : InitialSubset) (current_values : List ℚ) :
    Except String Unit × List ℚ :=
  match s with
  | .none => (Except.ok (), current_values)
  | .twoD _ =>
    (Except.error "When using facility location, the initial subset must be a one dimensional array of indices.",
     current_values)
  | .oneD idxs =>
    (Except.ok (),
     idxs.foldl (fun cv i => List.zipWith max (X.getD i []) cv) current_values)
  | .higher =>
    (Except.error "The initial subset must be either a two dimensional matrix of examples or a one dimensional mask.",
     current_values)

/-- Embeds `FacilityLocationSelection._initialize`: the base-class
initialization runs first (`base_init`, modelled from the spec), then the
initial subset is folded into the coverage vector by `fold_initial`. -/
def _initialize (X : List (List ℚ)) (s : InitialSubset) : Except String (List ℚ) :=
  match base_init X with
  | Except.error e => Except.error e
  | Except.ok cv =>
    match fold_initial X s cv with
    | (Except.ok _, cv2) => Except.ok cv2
    | (Except.error e, _) => Except.error e

/-- The concrete 4×4 similarity matrix of the spec's regression scenario. -/
def X4 : List (List ℚ) := [[5,1,0,2],[1,4,1,0],[0,1,3,1],[2,0,1,6]]

/-- Taking the elementwise maximum with the same row twice is the same as
taking it once. -/
lemma zipWith_max_absorb (a b : List ℚ) :
    List.zipWith max a (List.zipWith max a b) = List.zipWith max a b := by
  induction a generalizing b with
  | nil => simp
  | cons x xs ih =>
    cases b with
    | nil => simp
    | cons y ys => simp [List.zipWith, ih, ← max_assoc]

/-- C1.  The dense and sparse gain paths of `_calculate_gains` diverge on the
nonnegative matrix `X = [[1,1],[1,0]]` with coverage vector `[1,1]` (the state
reached after selecting row 0) and candidate list `[1]`: the dense kernel gives
gain `0` while the sparse kernel on the CSR encoding of `X` with zeros dropped
gives gain `-1`, a discrepancy far above the claimed `1e-9` tolerance.  The
sparse kernel skips the `max(0, current_values[k]) = current_values[k]` terms
at the candidate row's structurally-zero columns, yet the caller still
subtracts the full `current_values.sum()`. -/
theorem C1_sparse_dense_divergence :
    calculate_gains [[1,1],[1,0]] [1,1] [1] = [0] ∧
    calculate_gains_sparse (csrOfDense [[1,1],[1,0]]) [1,1] [1] = [-1] ∧
    ¬ (|(calculate_gains [[1,1],[1,0]] [1,1] [1]).getD 0 0 -
        (calculate_gains_sparse (csrOfDense [[1,1],[1,0]]) [1,1] [1]).getD 0 0| ≤
        1 / 1000000000) := by
  have hcsr : csrOfDense [[1,1],[1,0]] = ⟨[1,1,1], [0,1,0], [0,2,3]⟩ := by decide
  have h1 : calculate_gains [[1,1],[1,0]] [1,1] [1] = [0] := by
    norm_num [calculate_gains, select_next]
  have h2 : calculate_gains_sparse (csrOfDense [[1,1],[1,0]]) [1,1] [1] = [-1] := by
    rw [hcsr]
    norm_num [calculate_gains_sparse, select_next_sparse, List.range_succ]
  refine ⟨h1, h2, ?_⟩
  rw [h1, h2]
  norm_num

/-- C3.  The spec's regression scenario on `X4`: with zero coverage the gains
over candidates `[0,1,2,3]` are the row sums `[8,6,5,9]`; committing row 3 via
`_select_next` turns the coverage vector into `[2,0,1,6]`; and each remaining
candidate's next-round gain is `sum_k max(X4[idx,k], [2,0,1,6][k]) - 9`. -/
theorem C3_concrete_scenario :
    calculate_gains X4 [0,0,0,0] [0,1,2,3] = [8,6,5,9] ∧
    _select_next 4 (SimRow.dense (X4.getD 3 [])) [0,0,0,0] = [2,0,1,6] ∧
    ((calculate_gains X4 [2,0,1,6] [0,1,2]).getD 0 0 =
        (List.zipWith max (X4.getD 0 []) [2,0,1,6]).sum - 9 ∧
      (calculate_gains X4 [2,0,1,6] [0,1,2]).getD 1 0 =
        (List.zipWith max (X4.getD 1 []) [2,0,1,6]).sum - 9 ∧
      (calculate_gains X4 [2,0,1,6] [0,1,2]).getD 2 0 =
        (List.zipWith max (X4.getD 2 []) [2,0,1,6]).sum - 9) := by
  refine ⟨?_, ?_, ?_, ?_, ?_⟩ <;>
    norm_num [calculate_gains, select_next, _select_next, X4]

/-- C6.  Re-committing a row already folded into the coverage vector is a
no-op: a second `_select_next` with the same row, dense or sparse, leaves
`current_values` unchanged. -/
theorem C6_idempotent_recommit (d : ℕ) (r : SimRow) (cv : List ℚ) :
    _select_next d r (_select_next d r cv) = _select_next d r cv := by
  cases r with
  | dense row => simpa [ _select_next] using zipWith_max_absorb row cv
  | sparse e => simpa [ _select_next] using zipWith_max_absorb (toarray e d) cv

/-- C8.  A two-dimensional initial subset is rejected by `_initialize` with the
usage `ValueError`, and the coverage vector standing when the check fires is
returned untouched: the error is raised before the folding loop runs. -/
theorem C8_twoD_initial_subset_rejected (X ex : List (List ℚ)) (cv : List ℚ) :
    (fold_initial X (InitialSubset.twoD ex) cv).1 =
      Except.error "When using facility location, the initial subset must be a one dimensional array of indices." ∧
    (fold_initial X (InitialSubset.twoD ex) cv).2 = cv := by
  exact ⟨rfl, rfl⟩

/-- Closed form for one entry of the dense `_calculate_gains` output. -/
lemma calculate_gains_getD (X : List (List ℚ)) (cv : List ℚ) (idxs : List ℕ)
    (i : ℕ) (hi : i < idxs.length) :
    (calculate_gains X cv idxs).getD i 0 =
      (List.zipWith max (X.getD (idxs.getD i 0) []) cv).sum - cv.sum := by
  have h1 : i < (calculate_gains X cv idxs).length := by
    simpa [calculate_gains, select_next] using hi
  rw [List.getD_eq_getElem _ _ h1, List.getD_eq_getElem _ _ hi]
  simp [calculate_gains, select_next]

/-- The elementwise maximum with any row dominates the coverage sum. -/
lemma sum_le_sum_zipWith_max (r : List ℚ) : ∀ (cv : List ℚ), r.length = cv.length →
    cv.sum ≤ (List.zipWith max r cv).sum := by
  induction r with
  | nil =>
    intro cv h
    have : cv = [] := List.eq_nil_of_length_eq_zero h.symm
    simp [this]
  | cons x xs ih =>
    intro cv h
    cases cv with
    | nil => simp
    | cons y ys =>
      have hy : y ≤ max x y := le_max_right x y
      have := ih ys (by simpa using h)
      simp only [List.zipWith, List.sum_cons]
      linarith

/-- One entry of the net gain is antitone in the coverage vector. -/
lemma gain_anti_pointwise (r : List ℚ) : ∀ (A B : List ℚ),
    A.length = B.length → r.length = A.length →
    (∀ k, k < A.length → A.getD k 0 ≤ B.getD k 0) →
    (List.zipWith max r B).sum - B.sum ≤ (List.zipWith max r A).sum - A.sum := by
  induction r with
  | nil =>
    intro A B hAB hr _
    have hA : A = [] := List.eq_nil_of_length_eq_zero hr.symm
    have hB : B = [] := List.eq_nil_of_length_eq_zero (hAB ▸ hr).symm
    simp [hA, hB]
  | cons x xs ih =>
    intro A B hAB hr hle
    cases A with
    | nil => simp at hr
    | cons a as =>
      cases B with
      | nil => simp at hAB
      | cons b bs =>
        have hab : a ≤ b := by simpa using hle 0 (by simp)
        have hkey : max x b - b ≤ max x a - a := by
          rw [show max x b - b = max (x - b) (b - b) from (max_sub_sub_right x b b).symm,
            show max x a - a = max (x - a) (a - a) from (max_sub_sub_right x a a).symm,
            sub_self, sub_self]
          exact max_le_max (by linarith) le_rfl
        have hih := ih as bs (by simpa using hAB) (by simpa using hr)
          (fun k hk => by simpa [List.getD_cons_succ] using hle (k + 1) (by simpa using hk))
        simp only [List.zipWith, List.sum_cons]
        linarith

/-- C2.  One entry of the dense gains: `gains[i]` equals the sum over `k` of
`max(X[idxs[i], k], current_values[k])` minus `current_values.sum()`, the
subtraction being applied once, after the per-candidate kernel loop. -/
theorem C2_dense_gain_formula (X : List (List ℚ)) (cv : List ℚ) (idxs : List ℕ)
    (i : ℕ) (hi : i < idxs.length) :
    (calculate_gains X cv idxs).getD i 0 =
      (List.zipWith max (X.getD (idxs.getD i 0) []) cv).sum - cv.sum :=
  calculate_gains_getD X cv idxs i hi

/-- Witness for C2 at `X = [[2,3],[4,5]]`, `current_values = [1,1]`,
`idxs = [1]`, `i = 0`. -/
theorem C2_dense_gain_formula_witness :
    0 < [1].length ∧
    (calculate_gains [[2,3],[4,5]] [1,1] [1]).getD 0 0 =
      (List.zipWith max (([[2,3],[4,5]] : List (List ℚ)).getD ([1].getD 0 0) [])
        [1,1]).sum - ([1,1] : List ℚ).sum :=
  ⟨by decide, C2_dense_gain_formula [[2,3],[4,5]] [1,1] [1] 0 (by decide)⟩

/-- C10.  Every entry of the dense gains vector is nonnegative, for any matrix
(negative entries included): `max(X[idx,k], current_values[k])` dominates
`current_values[k]` at every column. -/
theorem C10_dense_gains_nonneg (X : List (List ℚ)) (cv : List ℚ) (idxs : List ℕ)
    (i : ℕ) (hi : i < idxs.length)
    (hr : (X.getD (idxs.getD i 0) []).length = cv.length) :
    0 ≤ (calculate_gains X cv idxs).getD i 0 := by
  rw [calculate_gains_getD X cv idxs i hi]
  have := sum_le_sum_zipWith_max (X.getD (idxs.getD i 0) []) cv hr
  linarith

/-- Witness for C10 at `X = [[-2,3]]` (a negative entry),
`current_values = [1,1]`, `idxs = [0]`, `i = 0`. -/
theorem C10_dense_gains_nonneg_witness :
    0 < [0].length ∧
    (([[-2,3]] : List (List ℚ)).getD ([0].getD 0 0) []).length =
      ([1,1] : List ℚ).length ∧
    0 ≤ (calculate_gains [[-2,3]] [1,1] [0]).getD 0 0 :=
  ⟨by decide, by decide, C10_dense_gains_nonneg [[-2,3]] [1,1] [0] 0 (by decide) (by decide)⟩

/-- C5.  Diminishing returns: against a coverage vector `B` that elementwise
dominates `A`, every candidate's gain from `_calculate_gains` is at most its
gain against `A`. -/
theorem C5_diminishing_returns (X : List (List ℚ)) (A B : List ℚ) (idxs : List ℕ)
    (i : ℕ) (hi : i < idxs.length) (hAB : A.length = B.length)
    (hr : (X.getD (idxs.getD i 0) []).length = A.length)
    (hle : ∀ k, k < A.length → A.getD k 0 ≤ B.getD k 0) :
    (calculate_gains X B idxs).getD i 0 ≤ (calculate_gains X A idxs).getD i 0 := by
  rw [calculate_gains_getD X B idxs i hi, calculate_gains_getD X A idxs i hi]
  exact gain_anti_pointwise (X.getD (idxs.getD i 0) []) A B hAB hr hle

/-- Witness for C5 at `X = [[3,1]]`, `A = [0,0]`, `B = [1,2]`, `idxs = [0]`,
`i = 0`. -/
theorem C5_diminishing_returns_witness :
    0 < [0].length ∧
    ([0,0] : List ℚ).length = ([1,2] : List ℚ).length ∧
    (([[3,1]] : List (List ℚ)).getD ([0].getD 0 0) []).length =
      ([0,0] : List ℚ).length ∧
    (∀ k, k < ([0,0] : List ℚ).length →
      ([0,0] : List ℚ).getD k 0 ≤ ([1,2] : List ℚ).getD k 0) ∧
    (calculate_gains [[3,1]] [1,2] [0]).getD 0 0 ≤
      (calculate_gains [[3,1]] [0,0] [0]).getD 0 0 :=
  ⟨by decide, by decide, by decide, by decide,
    C5_diminishing_returns [[3,1]] [0,0] [1,2] [0] 0
      (by decide) (by decide) (by decide) (by decide)⟩

/-- The committer preserves the coverage vector's length when the row spans
the same columns. -/
lemma _select_next_length (d : ℕ) (r : SimRow) (cv : List ℚ)
    (h : rowLen d r = cv.length) :
    ( _select_next d r cv).length = cv.length := by
  cases r with
  | dense row =>
    simp only [ _select_next]
    simp only [rowLen] at h
    simp [h]
  | sparse e =>
    simp only [ _select_next]
    simp only [rowLen] at h
    simp [toarray, h]

/-- Each entry of the coverage vector can only grow under an elementwise
maximum with an equally long row. -/
lemma getD_le_zipWith_max (a : List ℚ) : ∀ (b : List ℚ) (k : ℕ),
    a.length = b.length → b.getD k 0 ≤ (List.zipWith max a b).getD k 0 := by
  induction a with
  | nil =>
    intro b k h
    have : b = [] := List.eq_nil_of_length_eq_zero h.symm
    simp [this]
  | cons x xs ih =>
    intro b k h
    cases b with
    | nil => simp
    | cons y ys =>
      cases k with
      | zero => simp [le_max_right]
      | succ k => simpa [List.getD_cons_succ] using ih ys k (by simpa using h)

/-- Each entry of the coverage vector can only grow under one committer call. -/
lemma getD_le_select_next (d : ℕ) (r : SimRow) (cv : List ℚ) (k : ℕ)
    (h : rowLen d r = cv.length) :
    cv.getD k 0 ≤ ( _select_next d r cv).getD k 0 := by
  cases r with
  | dense row =>
    simp only [rowLen] at h
    simpa [ _select_next] using getD_le_zipWith_max row cv k h
  | sparse e =>
    simp only [rowLen] at h
    have hlen : (toarray e d).length = cv.length := by simp [toarray, h]
    simpa [ _select_next] using getD_le_zipWith_max (toarray e d) cv k hlen

/-- A run of committer calls preserves the coverage vector's length. -/
lemma run_commits_length (d : ℕ) : ∀ (rows : List SimRow) (cv : List ℚ),
    (∀ r ∈ rows, rowLen d r = cv.length) →
    (run_commits d rows cv).length = cv.length := by
  intro rows
  induction rows with
  | nil => intro cv _; rfl
  | cons r rs ih =>
    intro cv h
    have hlen := _select_next_length d r cv (h r (by simp))
    have hrest := ih ( _select_next d r cv)
      (fun r' hr' => by rw [hlen]; exact h r' (by simp [hr']))
    simpa [run_commits, List.foldl_cons, hlen] using hrest

/-- C4.  Monotone coverage: over any run of committer calls — dense rows,
sparse rows, or the identically-shaped folds of the initializer — the coverage
vector after commit `t + 1` dominates the one after commit `t`, elementwise. -/
theorem C4_monotone_coverage (d : ℕ) (rows : List SimRow) (cv0 : List ℚ)
    (t k : ℕ) (hlen : ∀ r ∈ rows, rowLen d r = cv0.length) :
    (state_after d rows cv0 t).getD k 0 ≤
      (state_after d rows cv0 (t + 1)).getD k 0 := by
  unfold state_after
  rw [List.take_succ]
  cases ho : rows[t]? with
  | none => simp [ho]
  | some r =>
    have hmem : r ∈ rows := by
      have := List.getElem?_eq_some_iff.mp ho
      obtain ⟨hlt, heq⟩ := this
      exact heq ▸ List.getElem_mem hlt
    have hsub : ∀ r' ∈ rows.take t, rowLen d r' = cv0.length :=
      fun r' hr' => hlen r' (List.take_subset t rows hr')
    have hst : (run_commits d (rows.take t) cv0).length = cv0.length :=
      run_commits_length d (rows.take t) cv0 hsub
    have hstep : run_commits d (rows.take t ++ [r]) cv0 =
        _select_next d r (run_commits d (rows.take t) cv0) := by
      simp [run_commits, List.foldl_append]
    simp only [Option.toList]
    rw [hstep]
    exact getD_le_select_next d r _ k (by rw [hst]; exact hlen r hmem)

/-- Witness for C4 with one dense and one sparse commit over two columns,
at `t = 1`, `k = 0`. -/
theorem C4_monotone_coverage_witness :
    (∀ r ∈ [SimRow.dense [3,1], SimRow.sparse [(1, 2)]],
      rowLen 2 r = ([0,0] : List ℚ).length) ∧
    (state_after 2 [SimRow.dense [3,1], SimRow.sparse [(1, 2)]] [0,0] 1).getD 0 0 ≤
      (state_after 2 [SimRow.dense [3,1], SimRow.sparse [(1, 2)]] [0,0] 2).getD 0 0 :=
  ⟨by decide,
    C4_monotone_coverage 2 [SimRow.dense [3,1], SimRow.sparse [(1, 2)]] [0,0] 1 0
      (by decide)⟩

/-- C7.  A similarity matrix with a negative entry makes initialization fail
with the negative-entry error before any gain computation; `_initialize`
returns no coverage vector, so no gain is ever computed from such a matrix. -/
theorem C7_negative_fails_fast (X : List (List ℚ)) (s : InitialSubset)
    (hneg : ∃ row ∈ X, ∃ x ∈ row, x < 0) :
    _initialize X s = Except.error "Similarity matrix contains negative entries" := by
  have hany : X.any (fun row => row.any (fun x => decide (x < 0))) = true := by
    obtain ⟨row, hrow, x, hx, hlt⟩ := hneg
    simp only [List.any_eq_true, decide_eq_true_eq]
    exact ⟨row, hrow, x, hx, hlt⟩
  simp [ _initialize, base_init, hany]

/-- Witness for C7 at `X = [[-1]]` with no initial subset. -/
theorem C7_negative_fails_fast_witness :
    (∃ row ∈ ([[-1]] : List (List ℚ)), ∃ x ∈ row, x < 0) ∧
    _initialize [[-1]] InitialSubset.none =
      Except.error "Similarity matrix contains negative entries" :=
  ⟨by decide, C7_negative_fails_fast [[-1]] InitialSubset.none (by decide)⟩

/-- `cupy.argmax` returns an index inside a nonempty buffer. -/
lemma argmax_lt_length : ∀ (l : List ℚ), l ≠ [] → argmax l < l.length := by
  intro l
  induction l with
  | nil => intro h; simp at h
  | cons x xs ih =>
    intro _
    cases xs with
    | nil => simp [argmax]
    | cons y ys =>
      simp only [argmax]
      split
      · have := ih (by simp)
        simp only [List.length_cons] at this ⊢
        omega
      · simp

/-- `cupy.argmax` points at a maximum entry. -/
lemma getD_le_getD_argmax : ∀ (l : List ℚ) (j : ℕ), j < l.length →
    l.getD j 0 ≤ l.getD (argmax l) 0 := by
  intro l
  induction l with
  | nil => intro j hj; simp at hj
  | cons x xs ih =>
    intro j hj
    cases xs with
    | nil =>
      have : j = 0 := by simpa using Nat.lt_one_iff.mp (by simpa using hj)
      simp [this, argmax]
    | cons y ys =>
      simp only [argmax]
      split
      case isTrue h =>
        cases j with
        | zero => simpa [List.getD_cons_succ] using le_of_lt h
        | succ k =>
          have hk : k < (y :: ys).length := by simpa using hj
          simpa [List.getD_cons_succ] using ih k hk
      case isFalse h =>
        cases j with
        | zero => simp
        | succ k =>
          have hk : k < (y :: ys).length := by simpa using hj
          have h2 := ih k hk
          have h3 : (y :: ys).getD (argmax (y :: ys)) 0 ≤ x := le_of_not_lt h
          simpa [List.getD_cons_succ] using le_trans h2 h3

/-- C9.  The GPU kernel `select_next_cupy`: the written `gains` buffer holds,
for each row `i`, the row sum of the elementwise maximum of `X[i]` with the
broadcast coverage vector, multiplied by `1 - mask[i]`; the returned index is
in range and maximizes that masked buffer. -/
theorem C9_cupy_kernel_contract (X : List (List ℚ)) (cv mask : List ℚ)
    (hmask : mask.length = X.length) (hne : X ≠ []) :
    (∀ i, i < X.length →
      (select_next_cupy X cv mask).1.getD i 0 =
        (List.zipWith max (X.getD i []) cv).sum * (1 - mask.getD i 0)) ∧
    (select_next_cupy X cv mask).2 < X.length ∧
    (∀ j, j < X.length →
      (select_next_cupy X cv mask).1.getD j 0 ≤
        (select_next_cupy X cv mask).1.getD (select_next_cupy X cv mask).2 0) := by
  have hglen : (select_next_cupy X cv mask).1.length = X.length := by
    simp [select_next_cupy, hmask]
  refine ⟨?_, ?_, ?_⟩
  · intro i hi
    have h1 : i < (select_next_cupy X cv mask).1.length := by rw [hglen]; exact hi
    have hm : i < mask.length := by rw [hmask]; exact hi
    rw [List.getD_eq_getElem _ _ h1, List.getD_eq_getElem X [] hi,
      List.getD_eq_getElem mask 0 hm]
    simp [select_next_cupy, List.getElem_zipWith, List.getElem_map]
  · have hne2 : (select_next_cupy X cv mask).1 ≠ [] := by
      intro hcon
      apply hne
      apply List.eq_nil_of_length_eq_zero
      rw [← hglen, hcon]
      rfl
    have := argmax_lt_length (select_next_cupy X cv mask).1 hne2
    rw [hglen] at this
    simpa [select_next_cupy] using this
  · intro j hj
    have hj2 : j < (select_next_cupy X cv mask).1.length := by rw [hglen]; exact hj
    have := getD_le_getD_argmax (select_next_cupy X cv mask).1 j hj2
    simpa [select_next_cupy] using this

/-- Witness for C9 at `X = [[2],[7]]`, `current_values = [1]`,
`mask = [0,1]`. -/
theorem C9_cupy_kernel_contract_witness :
    ([0,1] : List ℚ).length = ([[2],[7]] : List (List ℚ)).length ∧
    ([[2],[7]] : List (List ℚ)) ≠ [] ∧
    ((∀ i, i < ([[2],[7]] : List (List ℚ)).length →
      (select_next_cupy [[2],[7]] [1] [0,1]).1.getD i 0 =
        (List.zipWith max (([[2],[7]] : List (List ℚ)).getD i []) [1]).sum *
          (1 - ([0,1] : List ℚ).getD i 0)) ∧
    (select_next_cupy [[2],[7]] [1] [0,1]).2 < ([[2],[7]] : List (List ℚ)).length ∧
    (∀ j, j < ([[2],[7]] : List (List ℚ)).length →
      (select_next_cupy [[2],[7]] [1] [0,1]).1.getD j 0 ≤
        (select_next_cupy [[2],[7]] [1] [0,1]).1.getD
          (select_next_cupy [[2],[7]] [1] [0,1]).2 0)) :=
  ⟨by decide, by decide,
    C9_cupy_kernel_contract [[2],[7]] [1] [0,1] (by decide) (by decide)⟩

end Apricot
